import Mathlib

/-!
# Verification of the sigma-rust digest and wallet signing components

Shallow embedding of `src/ergo-lib/src/chain/digest32.rs` and
`src/bindings/ergo-lib-wasm/src/wallet.rs`.  Bytes are natural numbers; the
`u8` range (`< 256`) appears as an explicit hypothesis where it matters.
Parts of the wrapped `ergo_lib::wallet` library that are not in the source
tree are modelled from the specification and marked as such.
-/

namespace SigmaRust

/-! ## Base16 (lowercase hexadecimal) encoding and decoding -/

/-- Modelled from the spec: the canonical external representation is lowercase
hexadecimal, so the encoder maps a 4-bit value to its lowercase digit
character (0-9 then a-f).  The encoder itself (`base16::encode_lower`, behind
`Base16EncodedBytes`) is crate code outside `src/`. -/
def hexDigitChar (n : Nat) : Char :=
  if n < 10 then Char.ofNat (Char.toNat '0' + n)
  else Char.ofNat (Char.toNat 'a' + n - 10)

/-- Modelled from the spec: lowercase hex encoding of a byte sequence, two
characters per byte, high nibble first (`base16::encode_lower`, as used by
`Base16EncodedBytes::new`). -/
def base16EncodeLower : List Nat → List Char
  | [] => []
  | b :: bs => hexDigitChar (b / 16) :: hexDigitChar (b % 16) :: base16EncodeLower bs

/-- Whether a character is a lowercase hexadecimal digit. -/
def isLowerHexChar (c : Char) : Bool :=
  decide (('0' ≤ c ∧ c ≤ '9') ∨ ('a' ≤ c ∧ c ≤ 'f'))

/-- Numeric value of a hexadecimal digit character, `none` on a character that
is not a hex digit; upper case digits are accepted as well, as the underlying
decoder does. -/
def hexDigitValue (c : Char) : Option Nat :=
  if '0' ≤ c ∧ c ≤ '9' then some (c.toNat - '0'.toNat)
  else if 'a' ≤ c ∧ c ≤ 'f' then some (c.toNat - 'a'.toNat + 10)
  else if 'A' ≤ c ∧ c ≤ 'F' then some (c.toNat - 'A'.toNat + 10)
  else none

/-- Errors of the base16 decoder (`base16::DecodeError`): a character that is
not a hex digit, or an input of odd length. -/
inductive DecodeError where
  | invalidByte (c : Char)
  | invalidLength (len : Nat)
deriving DecidableEq, Repr

/-- Decode consecutive pairs of hex characters into bytes, failing on the
first character that is not a hexadecimal digit (or on a trailing lone
character). -/
def decodeHexPairs : List Char → Except DecodeError (List Nat)
  | [] => .ok []
  | [_] => .error (.invalidLength 1)
  | c₁ :: c₂ :: rest =>
    match hexDigitValue c₁ with
    | none => .error (.invalidByte c₁)
    | some hi =>
      match hexDigitValue c₂ with
      | none => .error (.invalidByte c₂)
      | some lo => (decodeHexPairs rest).map (fun bs => (16 * hi + lo) :: bs)

/-- Modelled from the spec: `Base16DecodedBytes::try_from(String)` via
`base16::decode` (crate code outside `src/`): a string that is not valid
hexadecimal (odd length, or a non-hex character) fails with a `DecodeError`;
otherwise the decoded byte sequence is returned. -/
def base16Decode (s : List Char) : Except DecodeError (List Nat) :=
  if s.length % 2 = 0 then decodeHexPairs s else .error (.invalidLength s.length)

/-! ## Digest types (`src/ergo-lib/src/chain/digest32.rs`) -/

/-- `DigestDef<N>`: the remote digest definition owning an N-byte array,
`pub struct DigestDef<const N: usize>(pub Box<[u8; N]>)`.  The `[u8; N]`
invariants (length `N`, each byte `< 256`) appear as hypotheses in the
theorems below. -/
structure DigestDef (N : Nat) where
  bytes : List Nat
deriving DecidableEq, Repr

/-- `Digest<N>`: the original digest type from `ergotree-ir` that `DigestDef`
mirrors, `pub struct Digest<const N: usize>(pub Box<[u8; N]>)`. -/
structure Digest (N : Nat) where
  bytes : List Nat
deriving DecidableEq, Repr

/-- `DigestDef::zero()`: `DigestDef(Box::new([0u8; N]))`. -/
def DigestDef.zero (N : Nat) : DigestDef N := ⟨List.replicate N 0⟩

/-- `Digest32Error`: `Base16DecodingError` wraps the base16 decode error,
`InvalidSize` wraps the (payload-free) slice-conversion error. -/
inductive Digest32Error where
  | base16DecodingError (e : DecodeError)
  | invalidSize
deriving DecidableEq, Repr

/-- `TryFrom<Base16DecodedBytes> for DigestDef<N>`:
`bytes.0.as_slice().try_into()`, which succeeds exactly when the byte count
is `N` and otherwise yields `InvalidSize`. -/
def DigestDef.tryFromBase16DecodedBytes (N : Nat) (bytes : List Nat) :
    Except Digest32Error (DigestDef N) :=
  if bytes.length = N then .ok ⟨bytes⟩ else .error .invalidSize

/-- `TryFrom<Base16DecodedBytes> for Digest<N>`: the parallel impl for the
original type, with the same body. -/
def Digest.tryFromBase16DecodedBytes (N : Nat) (bytes : List Nat) :
    Except Digest32Error (Digest N) :=
  if bytes.length = N then .ok ⟨bytes⟩ else .error .invalidSize

/-- `From<DigestDef<N>> for String` composed through
`From<DigestDef<N>> for Base16EncodedBytes`: the canonical text encoding of a
digest. -/
def DigestDef.toString (N : Nat) (d : DigestDef N) : List Char :=
  base16EncodeLower d.bytes

/-- `TryFrom<String> for DigestDef<N>`: first decode base16, then convert the
byte sequence; either step propagates its error into `Digest32Error`. -/
def DigestDef.tryFromString (N : Nat) (s : List Char) :
    Except Digest32Error (DigestDef N) :=
  match base16Decode s with
  | .error e => .error (.base16DecodingError e)
  | .ok bytes => DigestDef.tryFromBase16DecodedBytes N bytes

/-! ## Lemmas about the hex codec -/

/-- Encoding a 4-bit value and reading it back recovers the value. -/
theorem hexDigitValue_hexDigitChar {n : Nat} (h : n < 16) :
    hexDigitValue (hexDigitChar n) = some n := by
  interval_cases n <;> decide

/-- Every character the encoder emits for a 4-bit value is a lowercase
hexadecimal digit. -/
theorem isLowerHexChar_hexDigitChar {n : Nat} (h : n < 16) :
    isLowerHexChar (hexDigitChar n) = true := by
  interval_cases n <;> decide

/-- The hex encoding of a byte sequence has two characters per byte. -/
theorem base16EncodeLower_length (bs : List Nat) :
    (base16EncodeLower bs).length = 2 * bs.length := by
  induction bs with
  | nil => rfl
  | cons b bs ih =>
    simp only [base16EncodeLower, List.length_cons, ih]
    omega

/-- Every character of an encoded in-range byte sequence is a lowercase hex
digit. -/
theorem mem_base16EncodeLower (bs : List Nat) (hb : ∀ b ∈ bs, b < 256)
    (c : Char) (hc : c ∈ base16EncodeLower bs) : isLowerHexChar c = true := by
  induction bs with
  | nil => simp [base16EncodeLower] at hc
  | cons b bs ih =>
    have hb0 : b < 256 := hb b (List.mem_cons_self b bs)
    simp only [base16EncodeLower, List.mem_cons] at hc
    rcases hc with h | h | h
    · rw [h]; exact isLowerHexChar_hexDigitChar (by omega)
    · rw [h]; exact isLowerHexChar_hexDigitChar (by omega)
    · exact ih (fun x hx => hb x (List.mem_cons_of_mem _ hx)) h

/-- Decoding the pairwise hex encoding of in-range bytes recovers the bytes. -/
theorem decodeHexPairs_base16EncodeLower (bs : List Nat)
    (hb : ∀ b ∈ bs, b < 256) :
    decodeHexPairs (base16EncodeLower bs) = .ok bs := by
  induction bs with
  | nil => rfl
  | cons b bs ih =>
    have hb0 : b < 256 := hb b (List.mem_cons_self b bs)
    have h1 : b / 16 < 16 := by omega
    have h2 : b % 16 < 16 := by omega
    have ihh := ih (fun x hx => hb x (List.mem_cons_of_mem _ hx))
    simp only [base16EncodeLower, decodeHexPairs,
      hexDigitValue_hexDigitChar h1, hexDigitValue_hexDigitChar h2, ihh,
      Except.map]
    have : 16 * (b / 16) + b % 16 = b := by omega
    rw [this]

/-- A list containing a character that is not a hex digit never decodes. -/
theorem decodeHexPairs_error_of_nonhex :
    ∀ (s : List Char), (∃ c ∈ s, hexDigitValue c = none) →
      ∃ e, decodeHexPairs s = .error e
  | [], h => by simp at h
  | [_], _ => ⟨.invalidLength 1, rfl⟩
  | c₁ :: c₂ :: rest, h => by
    rcases h with ⟨c, hc, hval⟩
    cases h₁ : hexDigitValue c₁ with
    | none => exact ⟨.invalidByte c₁, by simp [decodeHexPairs, h₁]⟩
    | some hi =>
      cases h₂ : hexDigitValue c₂ with
      | none => exact ⟨.invalidByte c₂, by simp [decodeHexPairs, h₁, h₂]⟩
      | some lo =>
        have hcrest : c ∈ rest := by
          rcases List.mem_cons.mp hc with h | hc2
          · subst h; rw [h₁] at hval; cases hval
          · rcases List.mem_cons.mp hc2 with h | h
            · subst h; rw [h₂] at hval; cases hval
            · exact h
        obtain ⟨e, he⟩ := decodeHexPairs_error_of_nonhex rest ⟨c, hcrest, hval⟩
        exact ⟨e, by simp [decodeHexPairs, h₁, h₂, he, Except.map]⟩

/-- Any string with a non-hex character fails base16 decoding. -/
theorem base16Decode_error_of_nonhex (s : List Char)
    (h : ∃ c ∈ s, hexDigitValue c = none) :
    ∃ e, base16Decode s = .error e := by
  unfold base16Decode
  by_cases hp : s.length % 2 = 0
  · rw [if_pos hp]
    exact decodeHexPairs_error_of_nonhex s h
  · rw [if_neg hp]
    exact ⟨.invalidLength s.length, rfl⟩

/-- A lowercase hex digit always has a numeric value. -/
theorem hexDigitValue_isSome_of_lower (c : Char) (h : isLowerHexChar c = true) :
    ∃ v, hexDigitValue c = some v := by
  unfold isLowerHexChar at h
  rw [decide_eq_true_eq] at h
  unfold hexDigitValue
  rcases h with h | h
  · rw [if_pos h]
    exact ⟨_, rfl⟩
  · by_cases h9 : '0' ≤ c ∧ c ≤ '9'
    · rw [if_pos h9]
      exact ⟨_, rfl⟩
    · rw [if_neg h9, if_pos h]
      exact ⟨_, rfl⟩

/-- A list of hex digits of even length decodes into half as many bytes. -/
theorem decodeHexPairs_ok_of_hex :
    ∀ (s : List Char), (∀ c ∈ s, isLowerHexChar c = true) → s.length % 2 = 0 →
      ∃ bs, decodeHexPairs s = .ok bs ∧ bs.length = s.length / 2
  | [], _, _ => ⟨[], rfl, rfl⟩
  | [c], _, hp => by simp at hp
  | c₁ :: c₂ :: rest, hhex, hp => by
    obtain ⟨v₁, hv₁⟩ :=
      hexDigitValue_isSome_of_lower c₁ (hhex c₁ (by simp))
    obtain ⟨v₂, hv₂⟩ :=
      hexDigitValue_isSome_of_lower c₂ (hhex c₂ (by simp))
    have hrest : rest.length % 2 = 0 := by
      simp only [List.length_cons] at hp
      omega
    obtain ⟨bs, hbs, hlen⟩ :=
      decodeHexPairs_ok_of_hex rest (fun c hc => hhex c (by simp [hc])) hrest
    refine ⟨(16 * v₁ + v₂) :: bs, ?_, ?_⟩
    · simp [decodeHexPairs, hv₁, hv₂, hbs, Except.map]
    · simp only [List.length_cons, hlen]
      omega

/-! ## Digest claims -/

/-- Claim C1: for every valid digest `d` of `N` bytes, decoding the canonical
text encoding of `d` yields `d` again: `TryFrom<String>` applied to
`String::from(d)` succeeds and returns a digest byte-wise equal to `d`. -/
theorem c1_digest_decode_encode_roundtrip (N : Nat) (d : DigestDef N)
    (hlen : d.bytes.length = N) (hb : ∀ b ∈ d.bytes, b < 256) :
    DigestDef.tryFromString N (DigestDef.toString N d) = .ok d := by
  have hdec : base16Decode (DigestDef.toString N d) = .ok d.bytes := by
    unfold DigestDef.toString base16Decode
    rw [base16EncodeLower_length, if_pos (by omega)]
    exact decodeHexPairs_base16EncodeLower d.bytes hb
  simp [DigestDef.tryFromString, hdec, DigestDef.tryFromBase16DecodedBytes, hlen]

/-- Concrete round trip at the all-zero 32-byte digest. -/
theorem c1_digest_decode_encode_roundtrip_witness :
    DigestDef.tryFromString 32 (DigestDef.toString 32 (DigestDef.zero 32)) =
      .ok (DigestDef.zero 32) :=
  c1_digest_decode_encode_roundtrip 32 (DigestDef.zero 32) (by decide) (by decide)

/-- Claim C2: constructing a `DigestDef<N>` from a string fails with the
`InvalidSize` variant when the string is valid hexadecimal but decodes to a
byte count different from `N`, fails with the base16 decoding variant when
the string contains a character that is not a hex digit, and succeeds on
every valid lowercase-hex string of length exactly `2 * N`. -/
theorem c2_tryFromString_failure_modes (N : Nat) (s : List Char) :
    (∀ bytes, base16Decode s = .ok bytes → bytes.length ≠ N →
      DigestDef.tryFromString N s = .error .invalidSize) ∧
    ((∃ c ∈ s, hexDigitValue c = none) →
      ∃ e, DigestDef.tryFromString N s = .error (.base16DecodingError e)) ∧
    (s.length = 2 * N → (∀ c ∈ s, isLowerHexChar c = true) →
      ∃ d, DigestDef.tryFromString N s = .ok d) := by
  refine ⟨?_, ?_, ?_⟩
  · intro bytes hdec hne
    simp [DigestDef.tryFromString, hdec, DigestDef.tryFromBase16DecodedBytes,
      hne]
  · intro h
    obtain ⟨e, he⟩ := base16Decode_error_of_nonhex s h
    refine ⟨e, ?_⟩
    simp [DigestDef.tryFromString, he]
  · intro hslen hhex
    have hp : s.length % 2 = 0 := by omega
    obtain ⟨bs, hbs, hbslen⟩ := decodeHexPairs_ok_of_hex s hhex hp
    have hdec : base16Decode s = .ok bs := by
      unfold base16Decode
      rw [if_pos hp]
      exact hbs
    have hbn : bs.length = N := by omega
    refine ⟨⟨bs⟩, ?_⟩
    simp [DigestDef.tryFromString, hdec, DigestDef.tryFromBase16DecodedBytes,
      hbn]

/-- Concrete instances of the three failure-mode branches: a two-character
hex string against N = 32, a string with a non-hex character, and a
64-character lowercase hex string. -/
theorem c2_tryFromString_failure_modes_witness :
    DigestDef.tryFromString 32 ['a', 'a'] = .error .invalidSize ∧
    (∃ e, DigestDef.tryFromString 32 ['g', '0'] =
      .error (.base16DecodingError e)) ∧
    (∃ d, DigestDef.tryFromString 32 (List.replicate 64 '0') = .ok d) :=
  ⟨(c2_tryFromString_failure_modes 32 ['a', 'a']).1 [170] (by rfl) (by decide),
   (c2_tryFromString_failure_modes 32 ['g', '0']).2.1 ⟨'g', by decide, by decide⟩,
   (c2_tryFromString_failure_modes 32 (List.replicate 64 '0')).2.2 (by decide)
     (by decide)⟩

/-- Claim C6: the canonical string produced by `String::from(d)` is lowercase
hexadecimal of length exactly `2 * N`. -/
theorem c6_toString_canonical (N : Nat) (d : DigestDef N)
    (hlen : d.bytes.length = N) (hb : ∀ b ∈ d.bytes, b < 256) :
    (DigestDef.toString N d).length = 2 * N ∧
    ∀ c ∈ DigestDef.toString N d, isLowerHexChar c = true := by
  constructor
  · rw [DigestDef.toString, base16EncodeLower_length, hlen]
  · intro c hc
    exact mem_base16EncodeLower d.bytes hb c hc

/-- Concrete canonical-encoding facts at the all-zero 32-byte digest. -/
theorem c6_toString_canonical_witness :
    (DigestDef.toString 32 (DigestDef.zero 32)).length = 2 * 32 ∧
    ∀ c ∈ DigestDef.toString 32 (DigestDef.zero 32), isLowerHexChar c = true :=
  c6_toString_canonical 32 (DigestDef.zero 32) (by decide) (by decide)

/-- Claim C7: `DigestDef::zero()` is the digest whose N-byte array consists
entirely of zero bytes, for every N. -/
theorem c7_zero_all_zeros (N : Nat) :
    (DigestDef.zero N).bytes.length = N ∧
    ∀ b ∈ (DigestDef.zero N).bytes, b = 0 := by
  constructor
  · simp [DigestDef.zero]
  · intro b hb
    exact List.eq_of_mem_replicate hb

/-- Concrete instance of the zero digest shape at N = 32. -/
theorem c7_zero_all_zeros_witness :
    (DigestDef.zero 32).bytes.length = 32 ∧
    (DigestDef.zero 32).bytes.getD 0 0 = 0 :=
  ⟨(c7_zero_all_zeros 32).1,
   (c7_zero_all_zeros 32).2 ((DigestDef.zero 32).bytes.getD 0 0) (by decide)⟩

/-- Claim C9: for every string containing a character that is not a hex
digit, `TryFrom<String>` fails with the base16 decoding variant regardless of
the string length, and never yields `InvalidSize`: hexadecimal validity is
checked before the size check. -/
theorem c9_nonhex_error_precedence (N : Nat) (s : List Char) (c : Char)
    (hc : c ∈ s) (hval : hexDigitValue c = none) :
    (∃ e, DigestDef.tryFromString N s = .error (.base16DecodingError e)) ∧
    DigestDef.tryFromString N s ≠ .error .invalidSize := by
  obtain ⟨e, he⟩ := base16Decode_error_of_nonhex s ⟨c, hc, hval⟩
  constructor
  · refine ⟨e, ?_⟩
    unfold DigestDef.tryFromString
    rw [he]
  · unfold DigestDef.tryFromString
    rw [he]
    simp

/-- Concrete error-precedence instance on a length-one non-hex string. -/
theorem c9_nonhex_error_precedence_witness :
    (∃ e, DigestDef.tryFromString 32 ['x'] = .error (.base16DecodingError e)) ∧
    DigestDef.tryFromString 32 ['x'] ≠ .error .invalidSize :=
  c9_nonhex_error_precedence 32 ['x'] 'x' (by decide) (by decide)

/-- Claim C10: the remote (`DigestDef<N>`) and original (`Digest<N>`)
decoders from `Base16DecodedBytes` agree on every input: both succeed holding
the identical byte array, or both fail with the same error. -/
theorem c10_remote_original_decoders_agree (N : Nat) (bytes : List Nat) :
    (DigestDef.tryFromBase16DecodedBytes N bytes = .ok ⟨bytes⟩ ∧
     Digest.tryFromBase16DecodedBytes N bytes = .ok ⟨bytes⟩) ∨
    (∃ e, DigestDef.tryFromBase16DecodedBytes N bytes = .error e ∧
      Digest.tryFromBase16DecodedBytes N bytes = .error e) := by
  unfold DigestDef.tryFromBase16DecodedBytes Digest.tryFromBase16DecodedBytes
  by_cases h : bytes.length = N
  · left
    rw [if_pos h, if_pos h]
    exact ⟨rfl, rfl⟩
  · right
    refine ⟨.invalidSize, ?_, ?_⟩ <;> rw [if_neg h]

/-! ## Wallet data model

The wasm `Wallet` (`src/bindings/ergo-lib-wasm/src/wallet.rs`) is a thin
wrapper around `ergo_lib::wallet::Wallet`, whose code is outside the source
tree; the prover, the secret store, the transaction context and the message
signer are therefore modelled from the specification (spec sections 3 and 4),
while the dispatch logic visible in `wallet.rs` is embedded from the source.
Group elements are abstract identifiers. -/

/-- A sigma-protocol public value: the group element of a discrete-log
statement or the four group elements of a Diffie-Hellman tuple (spec sec. 3,
Secret and Proposition). -/
inductive PublicValue where
  | groupElement (g : Nat)
  | dhTuple (g h u v : Nat)
deriving DecidableEq, Repr

/-- Modelled from the spec: a Secret is a discriminated union of a
discrete-log secret and a Diffie-Hellman-tuple secret, each a scalar with its
associated public value (spec sec. 3). -/
inductive SecretKey where
  | dlogSecret (w : Nat) (pk : Nat)
  | dhTupleSecret (w : Nat) (g h u v : Nat)
deriving DecidableEq, Repr

/-- The public value associated with a secret, used to match secrets against
atomic statements. -/
def SecretKey.publicValue : SecretKey → PublicValue
  | .dlogSecret _ pk => .groupElement pk
  | .dhTupleSecret _ g h u v => .dhTuple g h u v

/-- Modelled from the spec: a Proposition is a boolean tree over atomic
sigma-protocol statements combined with AND / OR / threshold(k-of-n) nodes
(spec sec. 3). -/
inductive Proposition where
  | atom (pv : PublicValue)
  | cand (children : List Proposition)
  | cor (children : List Proposition)
  | cthreshold (k : Nat) (children : List Proposition)

/-- Modelled from the spec: a hint is a commitment for one atomic statement
(public value plus real/simulated flag) or a proof share for one atomic
statement (spec sec. 3, Hints Bag). -/
inductive Hint where
  | commitment (pv : PublicValue) (real : Bool)
  | proofShare (pv : PublicValue)
deriving DecidableEq, Repr

/-- Whether a hint lets the prover treat the atomic statement with the given
public value as provable: a commitment flagged real (a remote party owns this
leaf) or a proof share for it. -/
def Hint.providesReal : Hint → PublicValue → Bool
  | .commitment pv r, pv2 => r && decide (pv = pv2)
  | .proofShare pv, pv2 => decide (pv = pv2)

/-- Whether an atomic statement can be satisfied: a stored secret has the
matching public value, or a hint provides the leaf (spec sec. 4.4 steps 2-3). -/
def atomSatisfiable (store : List SecretKey) (hints : List Hint)
    (pv : PublicValue) : Bool :=
  store.any (fun s => decide (s.publicValue = pv)) ||
    hints.any (fun h => h.providesReal pv)

/-- Modelled from the spec: how many propositions of a list can be satisfied
with the available secrets and hints; an AND node needs all children, an OR
node needs at least one child, a threshold(k-of-n) node needs at least k
children (spec sec. 4.4 step 2). -/
def satCount (store : List SecretKey) (hints : List Hint) :
    List Proposition → Nat
  | [] => 0
  | .atom pv :: ps =>
    (if atomSatisfiable store hints pv then 1 else 0) +
      satCount store hints ps
  | .cand cs :: ps =>
    (if satCount store hints cs = cs.length then 1 else 0) +
      satCount store hints ps
  | .cor cs :: ps =>
    (if 0 < satCount store hints cs then 1 else 0) +
      satCount store hints ps
  | .cthreshold k cs :: ps =>
    (if k ≤ satCount store hints cs then 1 else 0) +
      satCount store hints ps

/-- Whether one proposition can be satisfied with the available secrets and
hints. -/
def Proposition.satisfiable (store : List SecretKey) (hints : List Hint)
    (p : Proposition) : Bool :=
  decide (satCount store hints [p] = 1)

/-- Proving error: names the offending input index (spec sec. 4.4 Failure). -/
inductive ProvingError where
  | provingError (inputIdx : Nat)
deriving DecidableEq, Repr

/-- The proof attached to one signed input; it records which proposition the
assembled sigma-proof tree attests. -/
structure ProvedInput where
  proposition : Proposition

/-- A signed transaction: every input carries its proof (spec sec. 3, Signed
Transaction / Proof). -/
structure Transaction where
  inputs : List ProvedInput

/-- A reduced transaction: each input annotated with its already-evaluated
proposition (spec sec. 3, Reduced Transaction; the execution cost does not
affect signing). -/
structure ReducedTransaction where
  inputs : List Proposition

/-- The hints collected for one input index out of a transaction hints bag
keyed by positional input index. -/
def hintsFor (bag : List (Nat × Hint)) (idx : Nat) : List Hint :=
  (bag.filter (fun x => x.1 == idx)).map (fun x => x.2)

/-- Modelled from the spec: prove a single input proposition with the store
and the hints for that input, failing when the proposition cannot be
satisfied (spec sec. 4.4). -/
def proveInput (store : List SecretKey) (hints : List Hint)
    (p : Proposition) : Option ProvedInput :=
  if Proposition.satisfiable store hints p then some ⟨p⟩ else none

/-- Modelled from the spec: prove all inputs in order starting at index
`idx`; the whole call fails with a `ProvingError` naming the offending index
as soon as one input cannot be proved, so no partial result is produced
(spec sec. 4.4 Failure). -/
def signInputs (store : List SecretKey) (bag : List (Nat × Hint)) :
    Nat → List Proposition → Except ProvingError (List ProvedInput)
  | _, [] => .ok []
  | idx, p :: ps =>
    match proveInput store (hintsFor bag idx) p with
    | none => .error (.provingError idx)
    | some q => (signInputs store bag (idx + 1) ps).map (fun rest => q :: rest)

/-- The wallet: an ordered store of secrets (spec sec. 3, Secret Store). -/
structure Wallet where
  secrets : List SecretKey
deriving DecidableEq, Repr

/-- `Wallet::add_secret` (src wasm `wallet.rs`, delegating to the ergo-lib
store, which is modelled from the spec): appends the secret to the store; the
method is total, mirroring the Rust signature that returns no `Result`. -/
def Wallet.add_secret (w : Wallet) (s : SecretKey) : Wallet :=
  ⟨w.secrets ++ [s]⟩

/-- `Wallet::sign_reduced_transaction` (src wasm `wallet.rs`, prover modelled
from the spec): prove every input of the reduced transaction in order with
the given hints bag. -/
def Wallet.sign_reduced_transaction (w : Wallet) (tx : ReducedTransaction)
    (bag : List (Nat × Hint)) : Except ProvingError Transaction :=
  (signInputs w.secrets bag 0 tx.inputs).map Transaction.mk

/-! ## Transaction context (spec sec. 4.3) and `sign_transaction` -/

/-- A box id is a 32-byte digest (spec sec. 3, Box). -/
abbrev BoxId := DigestDef 32

/-- A box snapshot: its identifying digest and its guarding proposition (the
monetary value and registers do not affect the properties verified here). -/
structure ErgoBox where
  boxId : BoxId
  guardProposition : Proposition

/-- An unsigned transaction: the ordered box ids referenced by its inputs and
by its read-only data inputs (spec sec. 3, Unsigned Transaction). -/
structure UnsignedTransaction where
  inputs : List BoxId
  dataInputs : List BoxId

/-- Context-creation error naming the missing or mismatched box id (spec
sec. 4.3). -/
inductive ContextCreationError where
  | boxNotFound (id : BoxId)
deriving DecidableEq, Repr

/-- Modelled from the spec: the positional 1:1 alignment check behind
`TransactionContext::new` (ergo-lib code outside `src/`): each referenced id
must equal the id of the box at the same position, with equal lengths; a
violation reports the missing or mismatched box id (spec sec. 4.3). -/
def checkAligned : List BoxId → List ErgoBox → Option ContextCreationError
  | [], [] => none
  | id :: _, [] => some (.boxNotFound id)
  | [], b :: _ => some (.boxNotFound b.boxId)
  | id :: ids, b :: bs =>
    if id = b.boxId then checkAligned ids bs else some (.boxNotFound id)

/-- The transaction context: the unsigned transaction with its positional
input-box and data-box collections; immutable once constructed. -/
structure TransactionContext where
  tx : UnsignedTransaction
  inputBoxes : List ErgoBox
  dataBoxes : List ErgoBox

/-- Modelled from the spec: `TransactionContext::new` (ergo-lib code outside
`src/`): pure construction that fails with a `ContextCreationError` naming
the missing or mismatched box id unless the input boxes align positionally
1:1 by box id with the transaction inputs and likewise the data boxes
(spec sec. 4.3). -/
def TransactionContext.new (tx : UnsignedTransaction)
    (inputBoxes dataBoxes : List ErgoBox) :
    Except ContextCreationError TransactionContext :=
  match checkAligned tx.inputs inputBoxes with
  | some e => .error e
  | none =>
    match checkAligned tx.dataInputs dataBoxes with
    | some e => .error e
    | none => .ok ⟨tx, inputBoxes, dataBoxes⟩

/-- The state snapshot: opaque to the core beyond being passed through to
script evaluation (spec sec. 6). -/
structure ErgoStateContext where
  height : Nat
deriving DecidableEq, Repr

/-- Modelled from the spec: script reduction evaluates every input box guard
against the state snapshot into its proposition (spec sec. 4.4 step 1); with
the snapshot opaque, each guard reduces to the proposition the box carries. -/
def reduceContext (ctx : TransactionContext) (_sc : ErgoStateContext) :
    ReducedTransaction :=
  ⟨ctx.inputBoxes.map ErgoBox.guardProposition⟩

/-- Errors surfaced by the wasm `Wallet::sign_transaction`: a context
creation failure or a proving failure. -/
inductive SignTxError where
  | contextError (e : ContextCreationError)
  | provingFailed (e : ProvingError)
deriving DecidableEq, Repr

/-- `Wallet::sign_transaction_multi` (src wasm `wallet.rs` lines 87-111):
builds the `TransactionContext`, returning its error before any proving is
attempted, and otherwise signs every input with the supplied hints bag. -/
def Wallet.sign_transaction_multi (w : Wallet) (sc : ErgoStateContext)
    (tx : UnsignedTransaction) (boxesToSpend dataBoxes : List ErgoBox)
    (bag : List (Nat × Hint)) : Except SignTxError Transaction :=
  match TransactionContext.new tx boxesToSpend dataBoxes with
  | .error e => .error (.contextError e)
  | .ok ctx =>
    (Wallet.sign_reduced_transaction w (reduceContext ctx sc) bag).mapError
      SignTxError.provingFailed

/-- `Wallet::sign_transaction` (src wasm `wallet.rs` lines 60-79): as the
multi-signature variant with no hints (`None`). -/
def Wallet.sign_transaction (w : Wallet) (sc : ErgoStateContext)
    (tx : UnsignedTransaction) (boxesToSpend dataBoxes : List ErgoBox) :
    Except SignTxError Transaction :=
  Wallet.sign_transaction_multi w sc tx boxesToSpend dataBoxes []

/-! ## Message signing (spec sec. 4.6) -/

/-- An address: a single public key (P2PK, carrying the discrete-log group
element), a script hash (P2SH) or a script (P2S). -/
inductive Address where
  | p2pk (d : Nat)
  | p2sh (hash : Nat)
  | p2s (script : Nat)
deriving DecidableEq, Repr

/-- Error of the inner `Wallet::sign_message`: the needed secret is absent. -/
inductive SignMessageError where
  | secretNotFound
deriving DecidableEq, Repr

/-- Modelled from the spec: `Wallet::sign_message` (ergo-lib code outside
`src/`) produces a standalone sigma-protocol proof over the message for a
single discrete-log statement, failing when the matching secret is absent; it
never reports an unsupported address (spec sec. 4.6). The proof bytes bind
the public key and the exact message bytes. -/
def Wallet.sign_message (w : Wallet) (pk : Nat) (message : List Nat) :
    Except SignMessageError (List Nat) :=
  if w.secrets.any (fun s => decide (s.publicValue = .groupElement pk)) then
    .ok (pk :: message)
  else .error .secretNotFound

/-- Errors surfaced by `Wallet::sign_message_using_p2pk`: the unsupported
address rejection, or a failure of the inner signer. -/
inductive SignMessageP2pkError where
  | unsupportedAddressError
  | signError (e : SignMessageError)
deriving DecidableEq, Repr

/-- `Wallet::sign_message_using_p2pk` (src wasm `wallet.rs` lines 180-196):
when the address is `Address::P2Pk(d)`, delegate to `sign_message` on the
discrete-log statement of `d`; otherwise fail with the unsupported-address
error. -/
def Wallet.sign_message_using_p2pk (w : Wallet) (address : Address)
    (message : List Nat) : Except SignMessageP2pkError (List Nat) :=
  match address with
  | .p2pk d => (w.sign_message d message).mapError SignMessageP2pkError.signError
  | _ => .error .unsupportedAddressError

/-! ## Lemmas about the prover -/

/-- A successful single-input proof means the proposition was satisfiable and
the proof attests exactly that proposition. -/
theorem proveInput_some (store : List SecretKey) (hints : List Hint)
    (p : Proposition) (q : ProvedInput)
    (h : proveInput store hints p = some q) :
    Proposition.satisfiable store hints p = true ∧ q = ⟨p⟩ := by
  unfold proveInput at h
  cases hs : Proposition.satisfiable store hints p with
  | false => rw [hs] at h; simp at h
  | true =>
    rw [hs] at h
    simp at h
    exact ⟨rfl, h.symm⟩

/-- A failed single-input proof means the proposition was not satisfiable. -/
theorem proveInput_none (store : List SecretKey) (hints : List Hint)
    (p : Proposition) (h : proveInput store hints p = none) :
    Proposition.satisfiable store hints p = false := by
  unfold proveInput at h
  cases hs : Proposition.satisfiable store hints p with
  | false => rfl
  | true => rw [hs] at h; simp at h

/-- When the whole signing loop succeeds, the proofs align 1:1 in order with
the input propositions and every input proposition was satisfiable with the
hints of its index. -/
theorem signInputs_ok (store : List SecretKey) (bag : List (Nat × Hint)) :
    ∀ (ps : List Proposition) (idx : Nat) (out : List ProvedInput),
      signInputs store bag idx ps = .ok out →
      out.map ProvedInput.proposition = ps ∧
      ∀ i p, ps.get? i = some p →
        Proposition.satisfiable store (hintsFor bag (idx + i)) p = true
  | [], idx, out => by
    intro h
    simp only [signInputs] at h
    injection h with h
    subst h
    refine ⟨rfl, ?_⟩
    intro i p hp
    simp at hp
  | p :: ps, idx, out => by
    intro h
    unfold signInputs at h
    cases hpi : proveInput store (hintsFor bag idx) p with
    | none => rw [hpi] at h; simp at h
    | some q =>
      rw [hpi] at h
      cases hrec : signInputs store bag (idx + 1) ps with
      | error e => rw [hrec] at h; simp [Except.map] at h
      | ok rest =>
        rw [hrec] at h
        simp only [Except.map, Except.ok.injEq] at h
        obtain ⟨hsat, hq⟩ := proveInput_some store (hintsFor bag idx) p q hpi
        obtain ⟨hmap, hrest⟩ := signInputs_ok store bag ps (idx + 1) rest hrec
        subst h
        refine ⟨?_, ?_⟩
        · simp [hq, hmap]
        · intro i p2 hp2
          cases i with
          | zero =>
            simp only [List.get?] at hp2
            injection hp2 with hp2
            subst hp2
            simpa using hsat
          | succ i =>
            simp only [List.get?] at hp2
            have harith : idx + (i + 1) = (idx + 1) + i := by omega
            rw [harith]
            exact hrest i p2 hp2

/-- When some input proposition is not satisfiable, the whole signing loop
fails with a `ProvingError` naming an index whose proposition is not
satisfiable. -/
theorem signInputs_error_of_unsat (store : List SecretKey)
    (bag : List (Nat × Hint)) :
    ∀ (ps : List Proposition) (idx : Nat),
      (∃ i p, ps.get? i = some p ∧
        Proposition.satisfiable store (hintsFor bag (idx + i)) p = false) →
      ∃ j p, signInputs store bag idx ps = .error (.provingError (idx + j)) ∧
        ps.get? j = some p ∧
        Proposition.satisfiable store (hintsFor bag (idx + j)) p = false
  | [], idx, h => by
    obtain ⟨i, p, hp, _⟩ := h
    simp at hp
  | q :: ps, idx, h => by
    cases hq : Proposition.satisfiable store (hintsFor bag idx) q with
    | false =>
      refine ⟨0, q, ?_, rfl, ?_⟩
      · unfold signInputs proveInput
        rw [hq]
        simp
      · rw [Nat.add_zero]
        exact hq
    | true =>
      obtain ⟨i, p, hp, hsat⟩ := h
      cases i with
      | zero =>
        simp only [List.get?] at hp
        injection hp with hp
        subst hp
        rw [Nat.add_zero, hq] at hsat
        cases hsat
      | succ i =>
        simp only [List.get?] at hp
        have harith : idx + (i + 1) = (idx + 1) + i := by omega
        rw [harith] at hsat
        obtain ⟨j, p2, herr, hget, hs2⟩ :=
          signInputs_error_of_unsat store bag ps (idx + 1) ⟨i, p, hp, hsat⟩
        have hpi : proveInput store (hintsFor bag idx) q = some ⟨q⟩ := by
          unfold proveInput
          rw [hq]
          simp
        have harith2 : idx + (j + 1) = (idx + 1) + j := by omega
        refine ⟨j + 1, p2, ?_, by simpa using hget, ?_⟩
        · unfold signInputs
          rw [hpi, herr, harith2]
          rfl
        · rw [harith2]
          exact hs2

/-- The alignment check passes exactly when the referenced ids equal the box
ids positionally (which forces equal lengths). -/
theorem checkAligned_none_iff :
    ∀ (ids : List BoxId) (boxes : List ErgoBox),
      checkAligned ids boxes = none ↔ ids = boxes.map ErgoBox.boxId
  | [], [] => by simp [checkAligned]
  | _ :: _, [] => by simp [checkAligned]
  | [], _ :: _ => by simp [checkAligned]
  | id :: ids, b :: bs => by
    unfold checkAligned
    by_cases h : id = b.boxId
    · rw [if_pos h]
      simp [h, checkAligned_none_iff ids bs]
    · rw [if_neg h]
      simp [h]

/-- A failed alignment check names a box id that occurs among the referenced
ids or among the supplied boxes. -/
theorem checkAligned_some :
    ∀ (ids : List BoxId) (boxes : List ErgoBox) (e : ContextCreationError),
      checkAligned ids boxes = some e →
      ∃ id, e = .boxNotFound id ∧
        (id ∈ ids ∨ id ∈ boxes.map ErgoBox.boxId)
  | [], [], e => by simp [checkAligned]
  | id :: ids, [], e => by
    intro h
    unfold checkAligned at h
    injection h with h
    exact ⟨id, h.symm, Or.inl (by simp)⟩
  | [], b :: bs, e => by
    intro h
    unfold checkAligned at h
    injection h with h
    exact ⟨b.boxId, h.symm, Or.inr (by simp)⟩
  | id :: ids, b :: bs, e => by
    intro h
    unfold checkAligned at h
    by_cases he : id = b.boxId
    · rw [if_pos he] at h
      obtain ⟨i2, he2, hmem⟩ := checkAligned_some ids bs e h
      refine ⟨i2, he2, ?_⟩
      rcases hmem with hm | hm
      · exact Or.inl (List.mem_cons_of_mem _ hm)
      · exact Or.inr (by simp [hm])
    · rw [if_neg he] at h
      injection h with h
      exact ⟨id, h.symm, Or.inl (by simp)⟩

/-! ## Wallet claims -/

/-- Claim C3: no partial signed transaction: when signing succeeds, every
input in order carries a proof of its proposition; when any input proposition
cannot be satisfied with the available secrets and hints, the whole call
fails with a `ProvingError` naming an offending input index and no
transaction is returned; `sign_transaction_multi` (and `sign_transaction`,
defined as the multi variant with no hints) routes through the same
all-or-nothing prover once its context is built. -/
theorem c3_sign_no_partial_transaction (w : Wallet) (tx : ReducedTransaction)
    (bag : List (Nat × Hint)) :
    (∀ t, Wallet.sign_reduced_transaction w tx bag = .ok t →
      t.inputs.map ProvedInput.proposition = tx.inputs ∧
      ∀ i p, tx.inputs.get? i = some p →
        Proposition.satisfiable w.secrets (hintsFor bag i) p = true) ∧
    ((∃ i p, tx.inputs.get? i = some p ∧
        Proposition.satisfiable w.secrets (hintsFor bag i) p = false) →
      (∃ j p, Wallet.sign_reduced_transaction w tx bag =
          .error (.provingError j) ∧
        tx.inputs.get? j = some p ∧
        Proposition.satisfiable w.secrets (hintsFor bag j) p = false) ∧
      ∀ t, Wallet.sign_reduced_transaction w tx bag ≠ .ok t) ∧
    (∀ (sc : ErgoStateContext) (utx : UnsignedTransaction)
        (ibs dbs : List ErgoBox) (ctx : TransactionContext),
      TransactionContext.new utx ibs dbs = .ok ctx →
      Wallet.sign_transaction_multi w sc utx ibs dbs bag =
        (Wallet.sign_reduced_transaction w (reduceContext ctx sc) bag).mapError
          SignTxError.provingFailed) := by
  refine ⟨?_, ?_, ?_⟩
  · intro t ht
    unfold Wallet.sign_reduced_transaction at ht
    cases hsi : signInputs w.secrets bag 0 tx.inputs with
    | error e => rw [hsi] at ht; simp [Except.map] at ht
    | ok out =>
      rw [hsi] at ht
      simp only [Except.map, Except.ok.injEq] at ht
      obtain ⟨hmap, hsat⟩ := signInputs_ok w.secrets bag tx.inputs 0 out hsi
      subst ht
      refine ⟨hmap, ?_⟩
      intro i p hp
      simpa using hsat i p hp
  · intro h
    have h0 : ∃ i p, tx.inputs.get? i = some p ∧
        Proposition.satisfiable w.secrets (hintsFor bag (0 + i)) p = false := by
      obtain ⟨i, p, hp, hs⟩ := h
      exact ⟨i, p, hp, by simpa using hs⟩
    obtain ⟨j, p, herr, hget, hs⟩ :=
      signInputs_error_of_unsat w.secrets bag tx.inputs 0 h0
    constructor
    · refine ⟨j, p, ?_, hget, by simpa using hs⟩
      unfold Wallet.sign_reduced_transaction
      rw [herr]
      simp [Except.map]
    · intro t ht
      unfold Wallet.sign_reduced_transaction at ht
      rw [herr] at ht
      simp [Except.map] at ht
  · intro sc utx ibs dbs ctx hctx
    unfold Wallet.sign_transaction_multi
    rw [hctx]

/-- Concrete all-or-nothing instance: one input guarded by a discrete-log
statement with no matching secret and no hints fails as a whole, naming input
index 0. -/
theorem c3_sign_no_partial_transaction_witness :
    Wallet.sign_reduced_transaction (Wallet.mk [])
        (ReducedTransaction.mk [Proposition.atom (.groupElement 1)]) [] =
      .error (.provingError 0) := by
  obtain ⟨⟨j, p, herr, hget, hs⟩, _⟩ :=
    (c3_sign_no_partial_transaction (Wallet.mk [])
      (ReducedTransaction.mk [Proposition.atom (.groupElement 1)]) []).2.1
      ⟨0, Proposition.atom (.groupElement 1), rfl,
        by simp [Proposition.satisfiable, satCount, atomSatisfiable, hintsFor]⟩
  cases j with
  | zero => exact herr
  | succ j => simp at hget

/-- Claim C4: `sign_message_using_p2pk` fails with the unsupported-address
error exactly when the address is not a single-public-key (P2PK) address, and
for a P2PK address it proceeds to the standalone message signer on the
discrete-log statement of that key. -/
theorem c4_sign_message_using_p2pk_guard (w : Wallet) (a : Address)
    (m : List Nat) :
    (Wallet.sign_message_using_p2pk w a m = .error .unsupportedAddressError ↔
      ∀ d, a ≠ .p2pk d) ∧
    ∀ d, a = .p2pk d →
      Wallet.sign_message_using_p2pk w a m =
        (Wallet.sign_message w d m).mapError SignMessageP2pkError.signError := by
  cases a with
  | p2pk d =>
    constructor
    · constructor
      · intro h
        exfalso
        simp only [Wallet.sign_message_using_p2pk] at h
        cases hm : Wallet.sign_message w d m with
        | ok v => rw [hm] at h; simp [Except.mapError] at h
        | error e =>
          rw [hm] at h
          simp [Except.mapError] at h
      · intro h
        exact absurd rfl (h d)
    · intro d2 hd2
      injection hd2 with hd2
      subst hd2
      rfl
  | p2sh s =>
    refine ⟨by simp [Wallet.sign_message_using_p2pk], ?_⟩
    intro d hd
    cases hd
  | p2s s =>
    refine ⟨by simp [Wallet.sign_message_using_p2pk], ?_⟩
    intro d hd
    cases hd

/-- Concrete address-guard instances: a script-hash address is rejected as
unsupported; a P2PK address goes to the message signer. -/
theorem c4_sign_message_using_p2pk_guard_witness :
    Wallet.sign_message_using_p2pk (Wallet.mk []) (Address.p2sh 0) [] =
      .error .unsupportedAddressError ∧
    Wallet.sign_message_using_p2pk (Wallet.mk []) (Address.p2pk 5) [] =
      (Wallet.sign_message (Wallet.mk []) 5 []).mapError
        SignMessageP2pkError.signError :=
  ⟨(c4_sign_message_using_p2pk_guard (Wallet.mk []) (Address.p2sh 0) []).1.mpr
      (by intro d; simp),
   (c4_sign_message_using_p2pk_guard (Wallet.mk []) (Address.p2pk 5) []).2 5 rfl⟩

/-- Claim C5: `TransactionContext::new` succeeds exactly when the input boxes
align positionally 1:1 by box id with the transaction inputs and likewise the
data boxes; a failure carries a `ContextCreationError` naming a missing or
mismatched box id; and when construction fails inside the pure
`sign_transaction` wrappers, that very error is returned for every wallet,
state and hints bag, before any proving is attempted. -/
theorem c5_transactionContext_new_alignment (tx : UnsignedTransaction)
    (ibs dbs : List ErgoBox) :
    ((∃ ctx, TransactionContext.new tx ibs dbs = .ok ctx) ↔
      (tx.inputs = ibs.map ErgoBox.boxId ∧
       tx.dataInputs = dbs.map ErgoBox.boxId)) ∧
    (∀ e, TransactionContext.new tx ibs dbs = .error e →
      ∃ id, e = .boxNotFound id ∧
        (id ∈ tx.inputs ∨ id ∈ ibs.map ErgoBox.boxId ∨
         id ∈ tx.dataInputs ∨ id ∈ dbs.map ErgoBox.boxId)) ∧
    (∀ e, TransactionContext.new tx ibs dbs = .error e →
      ∀ w sc bag,
        Wallet.sign_transaction_multi w sc tx ibs dbs bag =
          .error (.contextError e) ∧
        Wallet.sign_transaction w sc tx ibs dbs =
          .error (.contextError e)) := by
  refine ⟨?_, ?_, ?_⟩
  · constructor
    · rintro ⟨ctx, hctx⟩
      unfold TransactionContext.new at hctx
      cases h1 : checkAligned tx.inputs ibs with
      | some e => rw [h1] at hctx; simp at hctx
      | none =>
        rw [h1] at hctx
        cases h2 : checkAligned tx.dataInputs dbs with
        | some e => rw [h2] at hctx; simp at hctx
        | none =>
          exact ⟨(checkAligned_none_iff _ _).mp h1,
            (checkAligned_none_iff _ _).mp h2⟩
    · rintro ⟨hi, hd⟩
      refine ⟨⟨tx, ibs, dbs⟩, ?_⟩
      unfold TransactionContext.new
      rw [(checkAligned_none_iff _ _).mpr hi,
        (checkAligned_none_iff _ _).mpr hd]
  · intro e he
    unfold TransactionContext.new at he
    cases h1 : checkAligned tx.inputs ibs with
    | some e1 =>
      rw [h1] at he
      simp only [Except.error.injEq] at he
      subst he
      obtain ⟨id, hid, hmem⟩ := checkAligned_some _ _ e1 h1
      refine ⟨id, hid, ?_⟩
      rcases hmem with hm | hm
      · exact Or.inl hm
      · exact Or.inr (Or.inl hm)
    | none =>
      rw [h1] at he
      cases h2 : checkAligned tx.dataInputs dbs with
      | some e2 =>
        rw [h2] at he
        simp only [Except.error.injEq] at he
        subst he
        obtain ⟨id, hid, hmem⟩ := checkAligned_some _ _ e2 h2
        refine ⟨id, hid, ?_⟩
        rcases hmem with hm | hm
        · exact Or.inr (Or.inr (Or.inl hm))
        · exact Or.inr (Or.inr (Or.inr hm))
      | none =>
        rw [h2] at he
        simp at he
  · intro e he w sc bag
    constructor
    · unfold Wallet.sign_transaction_multi
      rw [he]
    · unfold Wallet.sign_transaction Wallet.sign_transaction_multi
      rw [he]

/-- Concrete context-creation failure: a transaction referencing the all-zero
box id with no boxes supplied fails naming that id, propagated unchanged by
`sign_transaction`. -/
theorem c5_transactionContext_new_alignment_witness :
    Wallet.sign_transaction (Wallet.mk []) (ErgoStateContext.mk 0)
        (UnsignedTransaction.mk [DigestDef.zero 32] []) [] [] =
      .error (.contextError (.boxNotFound (DigestDef.zero 32))) :=
  ((c5_transactionContext_new_alignment
      (UnsignedTransaction.mk [DigestDef.zero 32] []) [] []).2.2
    (.boxNotFound (DigestDef.zero 32)) rfl
    (Wallet.mk []) (ErgoStateContext.mk 0) []).2

/-- Claim C8: `Wallet::add_secret` has no error result (it is a total
function) and, after the call, the store holds the previously held secrets
unchanged in their original order with the new secret appended at the end. -/
theorem c8_add_secret_append_only (w : Wallet) (s : SecretKey) :
    (Wallet.add_secret w s).secrets.length = w.secrets.length + 1 ∧
    (∀ i, i < w.secrets.length →
      (Wallet.add_secret w s).secrets.get? i = w.secrets.get? i) ∧
    (Wallet.add_secret w s).secrets.get? w.secrets.length = some s := by
  refine ⟨?_, ?_, ?_⟩
  · simp [Wallet.add_secret]
  · intro i hi
    unfold Wallet.add_secret
    exact List.get?_append hi
  · unfold Wallet.add_secret
    rw [List.get?_append_right (Nat.le_refl _)]
    simp

/-- Concrete append instance: one held secret is preserved at index 0, the
new secret appears at index 1. -/
theorem c8_add_secret_append_only_witness :
    (Wallet.add_secret (Wallet.mk [SecretKey.dlogSecret 1 2])
        (SecretKey.dlogSecret 3 4)).secrets.get? 0 =
      (Wallet.mk [SecretKey.dlogSecret 1 2]).secrets.get? 0 ∧
    (Wallet.add_secret (Wallet.mk [SecretKey.dlogSecret 1 2])
        (SecretKey.dlogSecret 3 4)).secrets.get? 1 =
      some (SecretKey.dlogSecret 3 4) :=
  ⟨(c8_add_secret_append_only (Wallet.mk [SecretKey.dlogSecret 1 2])
      (SecretKey.dlogSecret 3 4)).2.1 0 (by decide),
   (c8_add_secret_append_only (Wallet.mk [SecretKey.dlogSecret 1 2])
      (SecretKey.dlogSecret 3 4)).2.2⟩

end SigmaRust
